import Mathlib

/-!
Verification of the `convert_10ks_to_mds.py` pipeline
(`examples/end-to-end-examples/sec_10k_qa/convert_10ks_to_mds.py`).

The Python source is shallowly embedded: pure fragments become Lean
functions on `List`/`String`/`Nat`, fallible fragments return `Option`
or an explicit result datatype, and the stateful download step is
explicit state passing over a name-to-contents map.
-/

namespace ConvertTenKs

/-! ## Worker sharding (`DownloadingIterable.__iter__`, lines 116-121)

The source partitions the identifier list with the Python slice
`self.identifiers[worker_id::num_workers]`: the elements at positions
`worker_id + k * num_workers` for `k = 0, 1, 2, ...`.  After dropping
the first `worker_id` elements, these are exactly the remaining
elements whose (re-based) position is divisible by `num_workers`. -/

/-- Elements of `l` whose position is congruent to `r` modulo `W`
(positions counted from 0). -/
def modFilter (W r : Nat) (l : List α) : List α :=
  l.enum.filterMap (fun p => if p.1 % W = r then some p.2 else none)

/-- Embedding of the Python slice `identifiers[w::W]` (start `w`, step `W`):
drop the first `w` elements, then keep every `W`-th element of the rest. -/
def sliceShard (l : List α) (w W : Nat) : List α :=
  modFilter W 0 (l.drop w)

/-- `modFilter` with the positions counted from `s` instead of 0 (the
generalization used to reason about `sliceShard` on a list tail). -/
def modFilterFrom (W r s : Nat) (l : List α) : List α :=
  (List.enumFrom s l).filterMap (fun p => if p.1 % W = r then some p.2 else none)

/-! ## Argument parsing (`parse_args`, lines 21-68) -/

/-- The attribute names defined on the parsed `Namespace` by the
`parser.add_argument` calls in `parse_args` (lines 27-46). -/
def addedArguments : List String :=
  ["max_workers", "remote", "out_root", "in_root", "dataset_subset",
   "compression", "concat_tokens", "tokenizer", "bos_text", "eos_text",
   "no_wrap"]

/-- The value of the Python attribute access `parsed.splits` (line 52).
`parse_args` never adds an argument named `splits` (see
`addedArguments`), so the access raises `AttributeError`; this is
modelled by `none`. -/
def parsedSplits : Option (List String) :=
  if addedArguments.contains ("splits") then some [] else none

/-- Outcome of the `out_root` check at lines 50-55. -/
inductive CheckResult where
  | passed
  | valueError
  | attributeError
deriving DecidableEq, Repr

/-- Embedding of lines 50-55 of `parse_args`: if `out_root` is an existing
directory (`isdir`) whose listing shares an entry with `parsed.splits`,
raise `ValueError`.  Evaluating the condition requires reading
`parsed.splits` (`parsedSplits`), which raises `AttributeError because
the parser never defines it; a non-existent `out_root` short-circuits
the conjunction before that access. -/
def outRootCheck (isdir : Bool) (listing : List String) : CheckResult :=
  if isdir then
    match parsedSplits with
    | none => CheckResult.attributeError
    | some splits =>
      if (listing.filter (fun e => splits.contains e)) ≠ [] then
        CheckResult.valueError
      else CheckResult.passed
  else CheckResult.passed

/-- Embedding of lines 57-61 of `parse_args`: when `--concat_tokens` is
supplied (with argparse `type=int` it is an `int` whenever present, so the
`isinstance` test adds nothing) and `--tokenizer` is not, `parser.error`
aborts. -/
def concatTokensCheck (concat_tokens : Option Int) (tokenizer : Option String) :
    Except String Unit :=
  if concat_tokens.isSome && tokenizer.isNone then
    Except.error ("When setting --concat_tokens, you must specify a --tokenizer")
  else Except.ok ()

/-- Embedding of lines 63-67 of `parse_args`: a `--bos_text`/`--eos_text`
value left at its `None` default is replaced by the empty string, a
supplied value is kept as is. -/
def resolveBosEos (v : Option String) : String :=
  v.getD ("")

/-! ## Identifier resolution (`joined_identifier`, lines 175-181) -/

/-- A raw dataset record as used by `joined_identifier`: the fields
`docID`, `tickers` and `reportDate` of an example. -/
structure RawRecord where
  docID : String
  tickers : List String
  reportDate : String
deriving DecidableEq, Repr

/-- Embedding of `joined_identifier` (lines 175-178): build
`f"..docID..|||..tickers[0]..|||..reportDate.."`.  The subscript
`example['tickers'][0]` raises `IndexError` on an empty ticker list,
modelled by `none`. -/
def joined_identifier (r : RawRecord) : Option String :=
  match r.tickers with
  | [] => none
  | t :: _ => some (r.docID ++ "|||" ++ t ++ "|||" ++ r.reportDate)

/-- Embedding of the `sec_filing_data.map(joined_identifier, ...)` call
(lines 180-181): `datasets.Dataset.map` applies the function to every
record and propagates any exception, aborting the whole pass, so the
pass fails (`none`) as soon as any single record fails. -/
def resolutionPass (rs : List RawRecord) : Option (List String) :=
  match rs with
  | [] => some []
  | r :: rest =>
    match joined_identifier r with
    | none => none
    | some i =>
      match resolutionPass rest with
      | none => none
      | some is => some (i :: is)

/-! ## Sharded document fetching (`DownloadingIterable.__iter__`, lines 122-137)

The loop body for one identifier `(_, ticker, report_date)`: compute
`year = report_date.split('-')[0]`, download the remote object
`os.path.join(input_folder_prefix, ticker, f"sec_..year.._txt.txt")` to
the local path `os.path.join(output_folder, ticker, f"sec_..year...txt")`,
read that local file and yield its contents as the `text` field.
`os.path.join a b` is modelled as `a ++ "/" ++ b` (its behaviour for the
relative, slash-free components used here); the object store and the
local file system are modelled as maps from path to contents. -/

/-- Embedding of `report_date.split('-')[0]` (line 125): the text before
the first `-` of the string (the whole string when no `-` occurs). -/
def reportYear (report_date : String) : String :=
  String.mk (report_date.toList.takeWhile (fun c => c ≠ '-'))

/-- Embedding of the remote object path built on lines 127-128:
`os.path.join(input_folder_prefix, ticker, f"sec_..year.._txt.txt")`. -/
def remoteObjectPath (inputFolderPfx ticker year : String) : String :=
  inputFolderPfx ++ "/" ++ ticker ++ "/sec_" ++ year ++ "_txt.txt"

/-- Embedding of the local download target built on line 129:
`os.path.join(output_folder, ticker, f"sec_..year...txt")`. -/
def localObjectPath (outputFolder ticker year : String) : String :=
  outputFolder ++ "/" ++ ticker ++ "/sec_" ++ year ++ ".txt"

/-- Embedding of one iteration of the fetch loop (lines 122-137): download
the remote object to the local path (updating the local file-system map
`fs`), then open and read that local file; the result is the updated file
system together with the yielded record, whose single field is the text
that was read.  `store` maps each remote path to the contents of the
object stored there. -/
def fetchStep (store : String → String) (fs : String → String)
    (inputFolderPfx outputFolder : String) (ident : String × String × String) :
    (String → String) × String :=
  let ticker := ident.2.1
  let year := reportYear ident.2.2
  let remote := remoteObjectPath inputFolderPfx ticker year
  let localPath := localObjectPath outputFolder ticker year
  let fs2 := fun p => if p = localPath then store remote else fs p
  (fs2, fs2 localPath)

/-! ## Token packing (wrap mode)

`ConcatTokensDataset` (used at lines 191-198) is imported from
`llmfoundry.data`; its implementation is not part of this repository's
sources. -/

/-- Modelled from the spec: the Token Packer's per-document token
sequence (`ConcatTokensDataset`, missing from the sources) —
`[bos_tokens?] + tokenized_text + [eos_tokens?]` (spec section 4.3),
taking the already-tokenized document and boundary token lists. -/
def docTokenSeq (bosT eosT doc : List Nat) : List Nat :=
  bosT ++ doc ++ eosT

/-- Modelled from the spec: the Token Packer's wrap-mode emission loop
(`ConcatTokensDataset`, missing from the sources) — while the buffer
holds at least `N` tokens, emit its first `N` tokens as a block and
remove them from the front (spec section 4.3).  The recursion is paced
by a fuel argument; `fuel = buffer.length` suffices since every
emission removes at least one token.  Returns the emitted blocks and
the remaining buffer. -/
def emitFull (N : Nat) : Nat → List Nat → List (List Nat) × List Nat
  | 0, buffer => ([], buffer)
  | fuel + 1, buffer =>
    if 0 < N ∧ N ≤ buffer.length then
      let rest := emitFull N fuel (buffer.drop N)
      (buffer.take N :: rest.1, rest.2)
    else ([], buffer)

/-- Modelled from the spec: one document step of the wrap-mode Token
Packer — append the document's token sequence to the buffer, then emit
full blocks while possible (spec section 4.3). -/
def packStep (N : Nat) (bosT eosT : List Nat) (buffer doc : List Nat) :
    List (List Nat) × List Nat :=
  let b := buffer ++ docTokenSeq bosT eosT doc
  emitFull N b.length b

/-- Modelled from the spec: the wrap-mode Token Packer over a finite
document stream (`ConcatTokensDataset`, missing from the sources) — a
single accumulation buffer persists across documents, full blocks are
emitted as they fill, and the end-of-stream remainder shorter than `N`
is dropped (spec section 4.3). -/
def packWrap (N : Nat) (bosT eosT : List Nat) (docs : List (List Nat)) :
    List (List Nat) :=
  (docs.foldl
    (fun acc doc =>
      let r := packStep N bosT eosT acc.2 doc
      (acc.1 ++ r.1, r.2))
    (([], []) : List (List Nat) × List Nat)).1

/-! ## Sample generation (`generate_samples`, lines 81-102)

A batch `{key: [v0, v1, ...]}` is modelled as an ordered association
list of columns `(key, values)`; a yielded sample dict is an ordered
association list `(key, value)`.  Fallible dictionary/index accesses
return `Option`, and a failure anywhere aborts the generator
(`none`). -/

/-- Sequence a list of optional values: `some` of the list of values
when all are present, `none` as soon as one is missing (the first raised
exception aborts the Python generator). -/
def optList {A : Type} : List (Option A) → Option (List A)
  | [] => some []
  | none :: _ => none
  | some a :: rest => (optList rest).map (fun l => a :: l)

/-- Embedding of the yield expression on line 102,
`{k: v[idx] for k, v in batch.items()}`: the sample dict at index `idx`
of a batch; `none` if any column is shorter than `idx + 1`
(`IndexError`). -/
def extractSample {V : Type} (batch : List (String × List V)) (idx : Nat) :
    Option (List (String × V)) :=
  optList (batch.map (fun kv => (kv.2.get? idx).map (fun v => (kv.1, v))))

/-- Embedding of the inner loop of `generate_samples` (lines 98-102),
counting down `rem` iterations of `for idx in range(current_bs)` from
index `idx` with running sample count `n`: each iteration first checks
`truncate_num_samples is not None and n_samples == truncate_num_samples`
(an exact equality test) and on success returns from the whole
generator, otherwise yields the sample at `idx`.  Returns the yielded
samples (each still fallible), the updated count, and whether the early
`return` fired. -/
def takeBatchLoop {V : Type} (batch : List (String × List V))
    (truncate : Option Nat) :
    Nat → Nat → Nat → List (Option (List (String × V))) × Nat × Bool
  | _, n, 0 => ([], n, false)
  | idx, n, rem + 1 =>
    if truncate = some n then ([], n, true)
    else
      let r := takeBatchLoop batch truncate (idx + 1) (n + 1) rem
      (extractSample batch idx :: r.1, r.2.1, r.2.2)

/-- Embedding of the outer loop of `generate_samples` (lines 95-102):
for each batch, `keys = list(batch.keys())` and
`current_bs = len(batch[keys[0]])` (an empty dict raises `IndexError`
at `keys[0]`, modelled by `none`), then the inner loop runs; the early
`return` ends the whole generator. -/
def genGo {V : Type} (truncate : Option Nat) :
    List (List (String × List V)) → Nat → Option (List (List (String × V)))
  | [], _ => some []
  | batch :: rest, n =>
    match batch with
    | [] => none
    | kv0 :: _ =>
      let r := takeBatchLoop batch truncate 0 n kv0.2.length
      match optList r.1 with
      | none => none
      | some ss =>
        if r.2.2 then some ss
        else
          match genGo truncate rest r.2.1 with
          | none => none
          | some more => some (ss ++ more)

/-- Embedding of `generate_samples` (lines 81-102): run the batch loop
with the sample counter starting at `n_samples = 0`; the result is the
full (finite) list of yielded samples. -/
def generateSamples {V : Type} (loader : List (List (String × List V)))
    (truncate : Option Nat) : Option (List (List (String × V))) :=
  genGo truncate loader 0

/-- The batch size read by `generate_samples` (line 97):
`len(batch[keys[0]])`, the length of the first column (0 for an empty
batch, where the Python raises instead). -/
def batchSize {V : Type} (batch : List (String × List V)) : Nat :=
  match batch with
  | [] => 0
  | kv0 :: _ => kv0.2.length

/-- The sample dict at index `idx` of a batch, written with a default
value for out-of-range indexes (which the hypotheses of the theorems
exclude): each column key paired with that column's `idx`-th value. -/
def sampleAt {V : Type} (dflt : V) (batch : List (String × List V)) (idx : Nat) :
    List (String × V) :=
  batch.map (fun kv => (kv.1, kv.2.getD idx dflt))

/-- All sample dicts of one batch, in index order. -/
def batchSamples {V : Type} (dflt : V) (batch : List (String × List V)) :
    List (List (String × V)) :=
  (List.range (batchSize batch)).map (sampleAt dflt batch)

/-- All sample dicts of a loader, in batch order and within-batch index
order. -/
def allSamples {V : Type} (dflt : V) (loader : List (List (String × List V))) :
    List (List (String × V)) :=
  (loader.map (batchSamples dflt)).flatten

/-! ## Joining and splitting identifiers on the separator

`joined_identifier` (line 177) glues `docID`, `tickers[0]` and
`reportDate` with the literal separator `|||`;
`DownloadingIterable.__init__` (lines 109-111) computes
`identifier.split('|||')` and `__iter__` (line 122) destructures the
result as a triple.  Python strings are modelled as `List Char` here so
that the scan of `str.split` is explicit: `str.split(sep)` scans left
to right and breaks at each leftmost non-overlapping occurrence of
`sep`. -/

/-- The separator `|||` as a character list. -/
def sepChars : List Char := ['|', '|', '|']

/-- The scanning loop of Python `identifier.split('|||')`: `acc` holds
the characters of the part being built.  At each position, if the next
three characters are `|||` the current part is finished and the scan
resumes after them; otherwise one character is consumed into the
current part. -/
def splitGo : List Char → List Char → List (List Char)
  | [], acc => [acc]
  | '|' :: '|' :: '|' :: rest2, acc => acc :: splitGo rest2 []
  | c :: rest, acc => splitGo rest (acc ++ [c])

/-- Embedding of `identifier.split('|||')` (line 110). -/
def pySplit (l : List Char) : List (List Char) :=
  splitGo l []

/-- The number of separator occurrences consumed by the scan of
`splitGo` (same traversal, counting instead of collecting). -/
def countSep : List Char → Nat
  | [] => 0
  | '|' :: '|' :: '|' :: rest2 => countSep rest2 + 1
  | _ :: rest => countSep rest

/-- Whether `|||` occurs as a contiguous substring (the Python
`'|||' in field` test, used to state when a field clashes with the
separator). -/
def hasSep : List Char → Bool
  | [] => false
  | '|' :: '|' :: '|' :: _ => true
  | _ :: rest => hasSep rest

/-- Whether the last character is `|`. -/
def endsPipe : List Char → Bool
  | [] => false
  | [c] => c = '|'
  | _ :: c :: rest => endsPipe (c :: rest)

/-- Embedding of the f-string of `joined_identifier` (line 177) at the
character-list level: field, separator, field, separator, field. -/
def joinId (d t r : List Char) : List Char :=
  d ++ sepChars ++ t ++ sepChars ++ r

/-- Embedding of the destructuring `(_, ticker, report_date) = parts`
performed by the fetch loop (line 122) on a split identifier: succeeds
exactly on three-element lists. -/
def destructure3 {A : Type} : List A → Option (A × A × A)
  | [a, b, c] => some (a, b, c)
  | _ => none

/-! # Theorems -/

/-! ## C1: worker shards partition the identifier list -/

theorem sliceShard_eq (l : List α) (w W : Nat) :
    sliceShard l w W = modFilterFrom W 0 0 (l.drop w) := rfl

theorem modFilterFrom_nil (W r s : Nat) :
    modFilterFrom W r s ([] : List α) = [] := rfl

theorem modFilterFrom_cons (W r s : Nat) (a : α) (l : List α) :
    modFilterFrom W r s (a :: l) =
      (if s % W = r then [a] else []) ++ modFilterFrom W r (s + 1) l := by
  by_cases h : s % W = r <;>
    simp [modFilterFrom, List.enumFrom_cons, List.filterMap_cons, h]

theorem modFilterFrom_period (W : Nat) :
    ∀ (l : List α) (s : Nat), modFilterFrom W 0 (s + W) l = modFilterFrom W 0 s l := by
  intro l
  induction l with
  | nil => intro s; rfl
  | cons a l ih =>
    intro s
    rw [modFilterFrom_cons, modFilterFrom_cons]
    have h : (s + W) % W = s % W := by
      rw [Nat.add_comm s W, Nat.add_mod_left]
    have h2 : s + W + 1 = (s + 1) + W := by omega
    rw [h, h2, ih (s + 1)]

theorem modFilterFrom_shift (W : Nat) :
    ∀ (l : List α) (s : Nat), 0 < s → s ≤ W →
      modFilterFrom W 0 s l = modFilterFrom W 0 0 (l.drop (W - s)) := by
  intro l
  induction l with
  | nil => intro s _ _; simp [modFilterFrom_nil]
  | cons a l ih =>
    intro s hs hsW
    rcases Nat.eq_or_lt_of_le hsW with he | hl
    · subst he
      rw [modFilterFrom_cons, Nat.mod_self]
      simp only [Nat.sub_self, List.drop_zero, if_pos rfl]
      rw [modFilterFrom_cons, Nat.zero_mod, if_pos rfl]
      have hp : s + 1 = 1 + s := by omega
      rw [hp, modFilterFrom_period]
      simp
    · rw [modFilterFrom_cons]
      have hmod : s % W = s := Nat.mod_eq_of_lt hl
      rw [hmod, if_neg (by omega)]
      have hdrop : (a :: l).drop (W - s) = l.drop (W - s - 1) := by
        obtain ⟨m, hm⟩ : ∃ m, W - s = m + 1 := ⟨W - s - 1, by omega⟩
        rw [hm, List.drop_succ_cons]
        simp
      rw [hdrop, List.nil_append, ih (s + 1) (by omega) (by omega)]
      have hsub : W - (s + 1) = W - s - 1 := by omega
      rw [hsub]

theorem sliceShard_cons_succ (a : α) (l : List α) (w W : Nat) :
    sliceShard (a :: l) (w + 1) W = sliceShard l w W := rfl

theorem sliceShard_cons_zero (a : α) (l : List α) (n : Nat) :
    sliceShard (a :: l) 0 (n + 1) = a :: sliceShard l n (n + 1) := by
  rw [sliceShard_eq, List.drop_zero, modFilterFrom_cons, Nat.zero_mod, if_pos rfl]
  rw [modFilterFrom_shift (n + 1) l 1 (by omega) (by omega)]
  rw [sliceShard_eq]
  simp

theorem shards_join_perm (n : Nat) :
    ∀ l : List α,
      (((List.range (n + 1)).map (fun w => sliceShard l w (n + 1))).flatten).Perm l := by
  intro l
  induction l with
  | nil =>
    have h0 : ∀ w, sliceShard ([] : List α) w (n + 1) = [] := by
      intro w
      simp [sliceShard, modFilter]
    simp [h0]
  | cons a l ih =>
    rw [List.range_succ_eq_map, List.map_cons, List.flatten_cons, List.map_map]
    have hcomp :
        ((fun w => sliceShard (a :: l) w (n + 1)) ∘ Nat.succ) =
          (fun w => sliceShard l w (n + 1)) := by
      funext w
      exact sliceShard_cons_succ a l w (n + 1)
    rw [hcomp, sliceShard_cons_zero, List.cons_append]
    refine List.Perm.cons a ?_
    refine List.Perm.trans (List.perm_append_comm) ?_
    have hjoin :
        ((List.range n).map (fun w => sliceShard l w (n + 1))).flatten ++
            sliceShard l n (n + 1) =
          ((List.range (n + 1)).map (fun w => sliceShard l w (n + 1))).flatten := by
      rw [List.range_succ, List.map_append, List.flatten_append]
      simp
    rw [hjoin]
    exact ih

/-- C1: for every identifier list `l` of length `L` and every worker count
`W` with `1 ≤ W ≤ L`, the `W` worker shards `identifiers[w::W]`
(`w = 0, ..., W - 1`) taken together are a permutation of the identifier
list: every identifier is covered exactly once, none is omitted and none
is assigned to two workers. -/
theorem C1_shards_partition (l : List α) (W : Nat) (h1 : 1 ≤ W) (h2 : W ≤ l.length) :
    (((List.range W).map (fun w => sliceShard l w W)).flatten).Perm l := by
  obtain ⟨n, rfl⟩ : ∃ n, W = n + 1 := ⟨W - 1, by omega⟩
  exact shards_join_perm n l

/-- Witness for C1 at the identifier list `[10, 20, 30, 40, 50]` and
worker count 2. -/
theorem C1_shards_partition_w :
    1 ≤ 2 ∧ 2 ≤ ([10, 20, 30, 40, 50] : List Nat).length ∧
      (((List.range 2).map
          (fun w => sliceShard ([10, 20, 30, 40, 50] : List Nat) w 2)).flatten).Perm
        [10, 20, 30, 40, 50] :=
  ⟨by decide, by decide,
    C1_shards_partition [10, 20, 30, 40, 50] 2 (by decide) (by decide)⟩

/-! ## C2, C3: wrap-mode packing -/

theorem emitFull_block_len (N : Nat) :
    ∀ (fuel : Nat) (buffer : List Nat) (b : List Nat),
      b ∈ (emitFull N fuel buffer).1 → b.length = N := by
  intro fuel
  induction fuel with
  | zero => intro buffer b hb; simp [emitFull] at hb
  | succ fuel ih =>
    intro buffer b hb
    rw [emitFull] at hb
    split at hb
    · rename_i h
      simp only [List.mem_cons] at hb
      rcases hb with rfl | hb
      · rw [List.length_take]
        omega
      · exact ih _ _ hb
    · simp at hb

theorem emitFull_flatten (N : Nat) :
    ∀ (fuel : Nat) (buffer : List Nat),
      ((emitFull N fuel buffer).1).flatten ++ (emitFull N fuel buffer).2 = buffer := by
  intro fuel
  induction fuel with
  | zero => intro buffer; simp [emitFull]
  | succ fuel ih =>
    intro buffer
    rw [emitFull]
    split
    · simp only [List.flatten_cons, List.append_assoc, ih]
      exact List.take_append_drop N buffer
    · simp

theorem emitFull_rest_short (N : Nat) (hN : 0 < N) :
    ∀ (fuel : Nat) (buffer : List Nat), buffer.length ≤ fuel →
      ((emitFull N fuel buffer).2).length < N := by
  intro fuel
  induction fuel with
  | zero =>
    intro buffer hb
    simp [emitFull]
    omega
  | succ fuel ih =>
    intro buffer hb
    rw [emitFull]
    split
    · rename_i h
      refine ih _ ?_
      rw [List.length_drop]
      omega
    · rename_i h
      simp only []
      omega

theorem packFold_block_len (N : Nat) (bosT eosT : List Nat) :
    ∀ (docs : List (List Nat)) (acc : List (List Nat) × List Nat),
      (∀ b ∈ acc.1, b.length = N) →
      ∀ b ∈ (docs.foldl
        (fun acc doc =>
          let r := packStep N bosT eosT acc.2 doc
          (acc.1 ++ r.1, r.2)) acc).1, b.length = N := by
  intro docs
  induction docs with
  | nil => intro acc hacc b hb; exact hacc b hb
  | cons d docs ih =>
    intro acc hacc b hb
    rw [List.foldl_cons] at hb
    refine ih _ ?_ b hb
    intro b' hb'
    simp only [List.mem_append] at hb'
    rcases hb' with h | h
    · exact hacc b' h
    · exact emitFull_block_len N _ _ b' h

theorem packFold_flatten (N : Nat) (bosT eosT : List Nat) :
    ∀ (docs : List (List Nat)) (acc : List (List Nat) × List Nat),
      ((docs.foldl
        (fun acc doc =>
          let r := packStep N bosT eosT acc.2 doc
          (acc.1 ++ r.1, r.2)) acc).1).flatten ++
      ((docs.foldl
        (fun acc doc =>
          let r := packStep N bosT eosT acc.2 doc
          (acc.1 ++ r.1, r.2)) acc).2) =
      acc.1.flatten ++ acc.2 ++ (docs.map (docTokenSeq bosT eosT)).flatten := by
  intro docs
  induction docs with
  | nil => intro acc; simp
  | cons d docs ih =>
    intro acc
    rw [List.foldl_cons]
    rw [ih]
    simp only [List.flatten_append, List.flatten_cons, List.map_cons]
    have he := emitFull_flatten N (acc.2 ++ docTokenSeq bosT eosT d).length
      (acc.2 ++ docTokenSeq bosT eosT d)
    simp only [packStep, List.flatten_append, List.append_assoc]
    congr 1
    rw [← List.append_assoc, he, List.append_assoc]

theorem packFold_rest_short (N : Nat) (hN : 0 < N) (bosT eosT : List Nat) :
    ∀ (docs : List (List Nat)) (acc : List (List Nat) × List Nat),
      acc.2.length < N →
      ((docs.foldl
        (fun acc doc =>
          let r := packStep N bosT eosT acc.2 doc
          (acc.1 ++ r.1, r.2)) acc).2).length < N := by
  intro docs
  induction docs with
  | nil => intro acc h; exact h
  | cons d docs ih =>
    intro acc h
    rw [List.foldl_cons]
    refine ih _ ?_
    exact emitFull_rest_short N hN _ _ (Nat.le_refl _)

/-- C3: in wrap mode, for every finite document stream and every positive
block size `N`, every emitted block has length exactly `N`; moreover the
emitted blocks, in order, are the longest all-full-blocks prefix of the
concatenated per-document token stream: joined together with a trailing
remainder shorter than `N` (the end-of-stream remainder, which is never
emitted) they reconstruct that stream exactly (FIFO order). -/
theorem C3_wrap_blocks_exact (N : Nat) (bosT eosT : List Nat)
    (docs : List (List Nat)) (hN : 0 < N) :
    (∀ b ∈ packWrap N bosT eosT docs, b.length = N) ∧
    (∃ trailing : List Nat, trailing.length < N ∧
      (packWrap N bosT eosT docs).flatten ++ trailing =
        (docs.map (docTokenSeq bosT eosT)).flatten) := by
  constructor
  · intro b hb
    exact packFold_block_len N bosT eosT docs ([], []) (by simp) b hb
  · refine ⟨(docs.foldl
      (fun acc doc =>
        let r := packStep N bosT eosT acc.2 doc
        (acc.1 ++ r.1, r.2)) ([], [])).2, ?_, ?_⟩
    · exact packFold_rest_short N hN bosT eosT docs ([], []) (by simpa using hN)
    · have := packFold_flatten N bosT eosT docs ([], [])
      simpa [packWrap] using this

/-- Witness for C3 at `N = 3` and token documents `[1,2]`, `[3,4,5]`,
`[6]`. -/
theorem C3_wrap_blocks_exact_w :
    0 < 3 ∧
    ((∀ b ∈ packWrap 3 [] [] [[1, 2], [3, 4, 5], [6]], b.length = 3) ∧
     (∃ trailing : List Nat, trailing.length < 3 ∧
       (packWrap 3 [] [] [[1, 2], [3, 4, 5], [6]]).flatten ++ trailing =
         (([[1, 2], [3, 4, 5], [6]] : List (List Nat)).map (docTokenSeq [] [])).flatten)) :=
  ⟨by decide, C3_wrap_blocks_exact 3 [] [] [[1, 2], [3, 4, 5], [6]] (by decide)⟩

/-- C2 counterexample: in wrap mode with `N = 10`, no bos/eos tokens, and
documents of token lengths 5, 7 and 4, the packer emits exactly ONE block
(the first 10 tokens of the concatenated stream), not 2: the leftover 6
tokens (2 from document 2 and the 4 of document 3) are a remainder
shorter than `N` and are dropped at end of stream. -/
theorem C2_cex_one_block :
    packWrap 10 [] [] [[0, 1, 2, 3, 4], [5, 6, 7, 8, 9, 10, 11], [12, 13, 14, 15]] =
      [[0, 1, 2, 3, 4, 5, 6, 7, 8, 9]] ∧
    (packWrap 10 [] [] [[0, 1, 2, 3, 4], [5, 6, 7, 8, 9, 10, 11], [12, 13, 14, 15]]).length ≠ 2 := by
  constructor <;> decide

/-- C2 (amended): in wrap mode with `N = 10`, no bos/eos tokens, and three
documents of token lengths 5, 7 and 4 consumed in that order, the packer
emits exactly one block, namely the first 10 tokens of the concatenated
stream (all 5 tokens of document 1 plus the first 5 of document 2); the
remaining 2 tokens of document 2 plus the 4 tokens of document 3 form a
6-token remainder, which is shorter than `N` and dropped at end of
split. -/
theorem C2_scenario_amended (d1 d2 d3 : List Nat)
    (h1 : d1.length = 5) (h2 : d2.length = 7) (h3 : d3.length = 4) :
    packWrap 10 [] [] [d1, d2, d3] = [d1 ++ d2.take 5] := by
  rcases d1 with _ | ⟨a1, _ | ⟨a2, _ | ⟨a3, _ | ⟨a4, _ | ⟨a5, _ | ⟨a6, t1⟩⟩⟩⟩⟩⟩ <;>
    simp_all
  rcases d2 with _ | ⟨b1, _ | ⟨b2, _ | ⟨b3, _ | ⟨b4, _ | ⟨b5, _ | ⟨b6, _ | ⟨b7, _ | ⟨b8, t2⟩⟩⟩⟩⟩⟩⟩⟩ <;>
    simp_all
  rcases d3 with _ | ⟨c1, _ | ⟨c2, _ | ⟨c3, _ | ⟨c4, _ | ⟨c5, t3⟩⟩⟩⟩⟩ <;>
    simp_all
  rfl

/-- Witness for the amended C2 at concrete token documents. -/
theorem C2_scenario_amended_w :
    packWrap 10 [] [] [[0, 1, 2, 3, 4], [5, 6, 7, 8, 9, 10, 11], [12, 13, 14, 15]] =
      [[0, 1, 2, 3, 4] ++ ([5, 6, 7, 8, 9, 10, 11] : List Nat).take 5] :=
  C2_scenario_amended [0, 1, 2, 3, 4] [5, 6, 7, 8, 9, 10, 11] [12, 13, 14, 15]
    (by decide) (by decide) (by decide)

/-! ## C4: empty ticker lists abort the resolution pass -/

/-- C4 counterexample: a record with an empty ticker list makes the whole
resolution pass fail (`IndexError` propagated by `datasets.map`), so the
record with the non-empty ticker list that follows it does NOT contribute
its identifier — the pass is aborted, not continued. -/
theorem C4_cex_abort :
    resolutionPass
        [⟨("d1"), [], ("2020-01-01")⟩, ⟨("d2"), [("AAPL")], ("2021-01-01")⟩] = none ∧
    resolutionPass
        [⟨("d1"), [], ("2020-01-01")⟩, ⟨("d2"), [("AAPL")], ("2021-01-01")⟩] ≠
      some [("d2|||AAPL|||2021-01-01")] := by
  constructor
  · rfl
  · intro h
    simp [resolutionPass, joined_identifier] at h

/-- C4 (amended): a record whose ticker list is empty makes
`joined_identifier` raise, which aborts the whole resolution pass (no
record is skipped); when every record has a non-empty ticker list, the
pass succeeds and each record contributes the identifier built from its
first ticker. -/
theorem C4_empty_tickers_abort :
    (∀ (rs : List RawRecord) (r : RawRecord), r ∈ rs → r.tickers = [] →
      resolutionPass rs = none) ∧
    (∀ rs : List RawRecord, (∀ r ∈ rs, r.tickers ≠ []) →
      resolutionPass rs =
        some (rs.map (fun r =>
          r.docID ++ "|||" ++ r.tickers.headD ("") ++ "|||" ++ r.reportDate))) := by
  constructor
  · intro rs
    induction rs with
    | nil => intro r hr; simp at hr
    | cons r0 rest ih =>
      intro r hr hempty
      rcases List.mem_cons.mp hr with rfl | hmem
      · simp [resolutionPass, joined_identifier, hempty]
      · have := ih r hmem hempty
        simp only [resolutionPass, this]
        cases joined_identifier r0 <;> rfl
  · intro rs
    induction rs with
    | nil => intro _; rfl
    | cons r0 rest ih =>
      intro h
      have h0 : r0.tickers ≠ [] := h r0 (List.mem_cons_self r0 rest)
      obtain ⟨t, ts, ht⟩ : ∃ t ts, r0.tickers = t :: ts := by
        cases hx : r0.tickers with
        | nil => exact absurd hx h0
        | cons t ts => exact ⟨t, ts, rfl⟩
      have hrest := ih (fun r hr => h r (List.mem_cons_of_mem r0 hr))
      simp [resolutionPass, joined_identifier, ht, hrest]

/-- Witness for the amended C4: a singleton pass with an empty ticker
list fails, a singleton pass with ticker `AAPL` yields its identifier. -/
theorem C4_empty_tickers_abort_w :
    resolutionPass [⟨("d1"), [], ("2020-01-01")⟩] = none ∧
    resolutionPass [⟨("d2"), [("AAPL")], ("2021-01-01")⟩] =
      some [("d2|||AAPL|||2021-01-01")] := by
  constructor
  · exact C4_empty_tickers_abort.1 _ ⟨("d1"), [], ("2020-01-01")⟩
      (List.mem_singleton.mpr rfl) rfl
  · exact C4_empty_tickers_abort.2 _ (by decide)

/-! ## C5: the out_root collision check -/

/-- C5 (code bug): whenever `out_root` is an existing directory — whatever
its listing, whether or not it contains an entry named after a split —
the check at lines 50-55 raises `AttributeError`, because it reads
`parsed.splits` and `parse_args` never defines a `splits` argument; when
`out_root` does not exist the conjunction short-circuits and parsing
proceeds.  The intended `ValueError` (whose message names the requested
splits) is unreachable. -/
theorem C5_out_root_check_bug :
    (∀ listing : List String, outRootCheck true listing = CheckResult.attributeError) ∧
    (∀ listing : List String, outRootCheck false listing = CheckResult.passed) ∧
    outRootCheck true [("somefile")] = CheckResult.attributeError := by
  have hp : parsedSplits = none := by decide
  refine ⟨fun listing => ?_, fun listing => rfl, ?_⟩
  · simp [outRootCheck, hp]
  · simp [outRootCheck, hp]

/-! ## C7: --concat_tokens requires --tokenizer -/

/-- C7: when `--concat_tokens` is supplied and `--tokenizer` is not, the
check at lines 57-61 raises a parser error (fatal, during argument
parsing, before any processing); when both are supplied the check
passes. -/
theorem C7_concat_requires_tokenizer :
    (∀ n : Int, concatTokensCheck (some n) none =
      Except.error ("When setting --concat_tokens, you must specify a --tokenizer")) ∧
    (∀ (n : Int) (t : String), concatTokensCheck (some n) (some t) = Except.ok ()) :=
  ⟨fun _ => rfl, fun _ _ => rfl⟩

/-! ## C8: bos/eos default to the empty string -/

/-- C8: an absent `--bos_text`/`--eos_text` is parsed to the empty string
and a supplied value is kept exactly; tokenizing the empty string yields
no tokens, so with the defaults the per-document token sequence built by
the packer is the document's tokens with no boundary tokens inserted. -/
theorem C8_bos_eos_defaults :
    resolveBosEos none = ("") ∧
    (∀ s : String, resolveBosEos (some s) = s) ∧
    (∀ (tokenize : String → List Nat) (doc : List Nat),
      tokenize ("") = [] →
      docTokenSeq (tokenize (resolveBosEos none)) (tokenize (resolveBosEos none)) doc =
        doc) := by
  refine ⟨rfl, fun s => rfl, fun tok doc h => ?_⟩
  simp [docTokenSeq, resolveBosEos, h]

/-- Witness for C8 with a concrete tokenizer mapping a string to its
character codes (which sends the empty string to no tokens). -/
theorem C8_bos_eos_defaults_w :
    docTokenSeq ((fun (s : String) => s.toList.map Char.toNat) (resolveBosEos none))
        ((fun (s : String) => s.toList.map Char.toNat) (resolveBosEos none)) [3, 4] =
      [3, 4] :=
  C8_bos_eos_defaults.2.2 (fun (s : String) => s.toList.map Char.toNat) [3, 4] rfl

/-! ## C6: fetch paths and the yielded record -/

/-- C6: for an identifier with ticker `t` and report date `d` whose year
`y` is the text before the first `-` of `d`, the fetcher derives the
remote object path `input_root/split/t/sec_y_txt.txt`, downloads it to
`staging_root/split/t/sec_y.txt`, and yields a record whose text is the
contents of that local file (which after the download are the stored
remote object's contents); both paths are functions of the roots, split,
ticker and year only. -/
theorem C6_fetch_paths (store fs : String → String)
    (input_root staging_root split doc t d y : String) (h : reportYear d = y) :
    remoteObjectPath (input_root ++ "/" ++ split) t (reportYear d) =
        input_root ++ "/" ++ split ++ "/" ++ t ++ "/sec_" ++ y ++ "_txt.txt" ∧
    localObjectPath (staging_root ++ "/" ++ split) t (reportYear d) =
        staging_root ++ "/" ++ split ++ "/" ++ t ++ "/sec_" ++ y ++ ".txt" ∧
    (fetchStep store fs (input_root ++ "/" ++ split) (staging_root ++ "/" ++ split)
        (doc, t, d)).2 =
      store (input_root ++ "/" ++ split ++ "/" ++ t ++ "/sec_" ++ y ++ "_txt.txt") ∧
    (fetchStep store fs (input_root ++ "/" ++ split) (staging_root ++ "/" ++ split)
        (doc, t, d)).1
        (staging_root ++ "/" ++ split ++ "/" ++ t ++ "/sec_" ++ y ++ ".txt") =
      store (input_root ++ "/" ++ split ++ "/" ++ t ++ "/sec_" ++ y ++ "_txt.txt") := by
  subst h
  refine ⟨rfl, rfl, ?_, ?_⟩ <;>
    simp [fetchStep, remoteObjectPath, localObjectPath]

/-- Witness for C6 at ticker `AAPL` and report date `2020-05-01` (year
`2020`). -/
theorem C6_fetch_paths_w :
    reportYear ("2020-05-01") = ("2020") ∧
    remoteObjectPath (("s3:bucket") ++ "/" ++ ("train")) ("AAPL")
        (reportYear ("2020-05-01")) =
      ("s3:bucket") ++ "/" ++ ("train") ++ "/" ++ ("AAPL") ++ "/sec_" ++ ("2020") ++
        "_txt.txt" :=
  ⟨by decide,
    (C6_fetch_paths (fun p => p) (fun _ => ("")) ("s3:bucket") ("/tmp/stage") ("train")
      ("doc7") ("AAPL") ("2020-05-01") ("2020") (by decide)).1⟩

/-! ## C9: joining and splitting identifiers -/

theorem splitGo_sep (r acc : List Char) :
    splitGo ('|' :: '|' :: '|' :: r) acc = acc :: splitGo r [] := rfl

theorem splitGo_cons1 (c : Char) (rest acc : List Char) (h : c ≠ '|') :
    splitGo (c :: rest) acc = splitGo rest (acc ++ [c]) := by
  rcases rest with _ | ⟨a, _ | ⟨b, r⟩⟩ <;> simp [splitGo, h]

theorem splitGo_cons2 (c : Char) (rest acc : List Char) (h : c ≠ '|') :
    splitGo ('|' :: c :: rest) acc = splitGo (c :: rest) (acc ++ ['|']) := by
  simp [splitGo, h]

theorem splitGo_cons3 (c : Char) (rest acc : List Char) (h : c ≠ '|') :
    splitGo ('|' :: '|' :: c :: rest) acc =
      splitGo ('|' :: c :: rest) (acc ++ ['|']) := by
  simp [splitGo, h]

theorem countSep_sep (r : List Char) :
    countSep ('|' :: '|' :: '|' :: r) = countSep r + 1 := rfl

theorem countSep_cons1 (c : Char) (rest : List Char) (h : c ≠ '|') :
    countSep (c :: rest) = countSep rest := by
  rcases rest with _ | ⟨a, _ | ⟨b, r⟩⟩ <;> simp [countSep, h]

theorem countSep_cons2 (c : Char) (rest : List Char) (h : c ≠ '|') :
    countSep ('|' :: c :: rest) = countSep (c :: rest) := by
  simp [countSep, h]

theorem countSep_cons3 (c : Char) (rest : List Char) (h : c ≠ '|') :
    countSep ('|' :: '|' :: c :: rest) = countSep ('|' :: c :: rest) := by
  simp [countSep, h]

-- generic catch-all equations under the no-match guard
theorem splitGo_catch (c : Char) (rest acc : List Char)
    (h : ∀ rest2 : List Char, c = '|' → rest = '|' :: '|' :: rest2 → False) :
    splitGo (c :: rest) acc = splitGo rest (acc ++ [c]) := by
  by_cases hc : c = '|'
  · subst hc
    rcases rest with _ | ⟨a, _ | ⟨b, r⟩⟩
    · simp [splitGo]
    · simp [splitGo]
    · by_cases ha : a = '|'
      · by_cases hb : b = '|'
        · subst ha; subst hb; exact (h r rfl rfl).elim
        · subst ha; exact splitGo_cons3 b r acc hb
      · exact splitGo_cons2 a (b :: r) acc ha
  · exact splitGo_cons1 c rest acc hc

theorem countSep_catch (c : Char) (rest : List Char)
    (h : ∀ rest2 : List Char, c = '|' → rest = '|' :: '|' :: rest2 → False) :
    countSep (c :: rest) = countSep rest := by
  by_cases hc : c = '|'
  · subst hc
    rcases rest with _ | ⟨a, _ | ⟨b, r⟩⟩
    · simp [countSep]
    · simp [countSep]
    · by_cases ha : a = '|'
      · by_cases hb : b = '|'
        · subst ha; subst hb; exact (h r rfl rfl).elim
        · subst ha
          rw [countSep_cons3 b r hb, countSep_cons2 b r hb]
      · rw [countSep_cons2 a (b :: r) ha]
  · exact countSep_cons1 c rest hc

-- parts count: number of parts is countSep + 1
theorem splitGo_length (l acc : List Char) :
    (splitGo l acc).length = countSep l + 1 := by
  induction l, acc using splitGo.induct with
  | case1 acc => rfl
  | case2 rest2 acc ih =>
    rw [splitGo_sep, countSep_sep, List.length_cons, ih]
  | case3 c rest acc h ih =>
    rw [splitGo_catch c rest acc h, countSep_catch c rest h, ih]

theorem countSep_cons_ge_aux :
    ∀ (n : Nat) (l : List Char), l.length ≤ n → ∀ c, countSep l ≤ countSep (c :: l) := by
  intro n
  induction n with
  | zero =>
    intro l hl c
    have hz : l = [] := List.eq_nil_of_length_eq_zero (by omega)
    subst hz
    exact Nat.zero_le _
  | succ n ihn =>
    intro l hl c
    by_cases hc : c = '|'
    · subst hc
      rcases l with _ | ⟨a, l1⟩
      · decide
      · by_cases ha : a = '|'
        · subst ha
          rcases l1 with _ | ⟨b, l2⟩
          · decide
          · by_cases hb : b = '|'
            · subst hb
              rw [countSep_sep]
              rcases l2 with _ | ⟨e, l3⟩
              · decide
              · by_cases he : e = '|'
                · subst he
                  rw [countSep_sep]
                  have := ihn l3 (by simp at hl; omega) '|'
                  omega
                · rw [countSep_cons3 e l3 he, countSep_cons2 e l3 he]
                  omega
            · rw [countSep_cons3 b l2 hb]
        · rw [countSep_cons2 a l1 ha]
    · rw [countSep_cons1 c l hc]

theorem countSep_cons_ge (l : List Char) (c : Char) :
    countSep l ≤ countSep (c :: l) :=
  countSep_cons_ge_aux l.length l (Nat.le_refl _) c

theorem sepChars_append (v : List Char) :
    sepChars ++ v = '|' :: '|' :: '|' :: v := rfl

theorem countSep_sep_between_aux :
    ∀ (n : Nat) (u : List Char), u.length ≤ n → ∀ v : List Char,
      countSep u + 1 + countSep v ≤ countSep (u ++ (sepChars ++ v)) := by
  intro n
  induction n with
  | zero =>
    intro u hu v
    have hz : u = [] := List.eq_nil_of_length_eq_zero (by omega)
    subst hz
    rw [List.nil_append, sepChars_append, countSep_sep]
    simp [countSep]
    omega
  | succ n ihn =>
    intro u hu v
    rcases u with _ | ⟨c1, _ | ⟨c2, _ | ⟨c3, u3⟩⟩⟩
    · rw [List.nil_append, sepChars_append, countSep_sep]
      simp [countSep]
      omega
    · -- u = [c1]
      by_cases h1 : c1 = '|'
      · subst h1
        have hcomb : ['|'] ++ (sepChars ++ v) = '|' :: '|' :: '|' :: ('|' :: v) := rfl
        rw [hcomb, countSep_sep]
        have := countSep_cons_ge v '|'
        have hu1 : countSep ['|'] = 0 := by decide
        omega
      · have hcomb : [c1] ++ (sepChars ++ v) = c1 :: ('|' :: '|' :: '|' :: v) := rfl
        rw [hcomb, countSep_cons1 c1 ('|' :: '|' :: '|' :: v) h1, countSep_sep,
          countSep_cons1 c1 [] h1]
        simp [countSep]
        omega
    · -- u = [c1, c2]
      by_cases h1 : c1 = '|'
      · subst h1
        by_cases h2 : c2 = '|'
        · subst h2
          have hcomb : ['|', '|'] ++ (sepChars ++ v) =
              '|' :: '|' :: '|' :: ('|' :: '|' :: v) := rfl
          rw [hcomb, countSep_sep]
          have g1 := countSep_cons_ge v '|'
          have g2 := countSep_cons_ge ('|' :: v) '|'
          have hu2 : countSep ['|', '|'] = 0 := by decide
          omega
        · have hcomb : ['|', c2] ++ (sepChars ++ v) =
              '|' :: c2 :: ('|' :: '|' :: '|' :: v) := rfl
          rw [hcomb, countSep_cons2 c2 ('|' :: '|' :: '|' :: v) h2,
            countSep_cons1 c2 ('|' :: '|' :: '|' :: v) h2, countSep_sep,
            countSep_cons2 c2 [] h2, countSep_cons1 c2 [] h2]
          simp [countSep]
          omega
      · have hcomb : [c1, c2] ++ (sepChars ++ v) = c1 :: ([c2] ++ (sepChars ++ v)) := rfl
        rw [hcomb, countSep_cons1 c1 ([c2] ++ (sepChars ++ v)) h1,
          countSep_cons1 c1 [c2] h1]
        exact ihn [c2] (by simp at hu ⊢; omega) v
    · -- u = c1 :: c2 :: c3 :: u3
      by_cases h1 : c1 = '|'
      · subst h1
        by_cases h2 : c2 = '|'
        · subst h2
          by_cases h3 : c3 = '|'
          · subst h3
            have hcomb : ('|' :: '|' :: '|' :: u3) ++ (sepChars ++ v) =
                '|' :: '|' :: '|' :: (u3 ++ (sepChars ++ v)) := rfl
            rw [hcomb, countSep_sep, countSep_sep]
            have := ihn u3 (by simp at hu ⊢; omega) v
            omega
          · have hcomb : ('|' :: '|' :: c3 :: u3) ++ (sepChars ++ v) =
                '|' :: '|' :: c3 :: (u3 ++ (sepChars ++ v)) := rfl
            rw [hcomb, countSep_cons3 c3 (u3 ++ (sepChars ++ v)) h3,
              countSep_cons2 c3 (u3 ++ (sepChars ++ v)) h3,
              countSep_cons3 c3 u3 h3, countSep_cons2 c3 u3 h3]
            exact ihn (c3 :: u3) (by simp at hu ⊢; omega) v
        · have hcomb : ('|' :: c2 :: c3 :: u3) ++ (sepChars ++ v) =
              '|' :: c2 :: ((c3 :: u3) ++ (sepChars ++ v)) := rfl
          rw [hcomb, countSep_cons2 c2 ((c3 :: u3) ++ (sepChars ++ v)) h2,
            countSep_cons2 c2 (c3 :: u3) h2]
          exact ihn (c2 :: c3 :: u3) (by simp at hu ⊢; omega) v
      · have hcomb : (c1 :: c2 :: c3 :: u3) ++ (sepChars ++ v) =
            c1 :: ((c2 :: c3 :: u3) ++ (sepChars ++ v)) := rfl
        rw [hcomb, countSep_cons1 c1 ((c2 :: c3 :: u3) ++ (sepChars ++ v)) h1,
          countSep_cons1 c1 (c2 :: c3 :: u3) h1]
        exact ihn (c2 :: c3 :: u3) (by simp at hu ⊢; omega) v

theorem countSep_sep_between (u v : List Char) :
    countSep u + 1 + countSep v ≤ countSep (u ++ (sepChars ++ v)) :=
  countSep_sep_between_aux u.length u (Nat.le_refl _) v

theorem hasSep_sep (r : List Char) : hasSep ('|' :: '|' :: '|' :: r) = true := rfl

theorem hasSep_cons1 (c : Char) (rest : List Char) (h : c ≠ '|') :
    hasSep (c :: rest) = hasSep rest := by
  rcases rest with _ | ⟨a, _ | ⟨b, r⟩⟩ <;> simp [hasSep, h]

theorem hasSep_cons2 (c : Char) (rest : List Char) (h : c ≠ '|') :
    hasSep ('|' :: c :: rest) = hasSep (c :: rest) := by
  simp [hasSep, h]

theorem hasSep_cons3 (c : Char) (rest : List Char) (h : c ≠ '|') :
    hasSep ('|' :: '|' :: c :: rest) = hasSep ('|' :: c :: rest) := by
  simp [hasSep, h]

theorem endsPipe_cons (c x : Char) (xs : List Char) :
    endsPipe (c :: x :: xs) = endsPipe (x :: xs) := rfl

theorem splitGo_no_sep_aux :
    ∀ (n : Nat) (r : List Char), r.length ≤ n → hasSep r = false →
      ∀ acc, splitGo r acc = [acc ++ r] := by
  intro n
  induction n with
  | zero =>
    intro r hr _ acc
    have hz : r = [] := List.eq_nil_of_length_eq_zero (by omega)
    subst hz
    simp [splitGo]
  | succ n ihn =>
    intro r hr hs acc
    rcases r with _ | ⟨c, r1⟩
    · simp [splitGo]
    · by_cases hc : c = '|'
      · subst hc
        rcases r1 with _ | ⟨a, r2⟩
        · simp [splitGo]
        · by_cases ha : a = '|'
          · subst ha
            rcases r2 with _ | ⟨b, r3⟩
            · simp [splitGo]
            · by_cases hb : b = '|'
              · subst hb
                simp [hasSep] at hs
              · rw [splitGo_cons3 b r3 acc hb]
                have hs2 : hasSep ('|' :: b :: r3) = false := by
                  rw [hasSep_cons3 b r3 hb] at hs
                  exact hs
                rw [ihn ('|' :: b :: r3) (by simp at hr ⊢; omega) hs2 (acc ++ ['|'])]
                simp
          · rw [splitGo_cons2 a r2 acc ha]
            have hs2 : hasSep (a :: r2) = false := by
              rw [hasSep_cons2 a r2 ha] at hs
              exact hs
            rw [ihn (a :: r2) (by simp at hr ⊢; omega) hs2 (acc ++ ['|'])]
            simp
      · rw [splitGo_cons1 c r1 acc hc]
        have hs2 : hasSep r1 = false := by
          rw [hasSep_cons1 c r1 hc] at hs
          exact hs
        rw [ihn r1 (by simp at hr ⊢; omega) hs2 (acc ++ [c])]
        simp

theorem splitGo_field_aux :
    ∀ (n : Nat) (d : List Char), d.length ≤ n → hasSep d = false →
      endsPipe d = false → ∀ (m acc : List Char),
      splitGo (d ++ (sepChars ++ m)) acc = (acc ++ d) :: splitGo m [] := by
  intro n
  induction n with
  | zero =>
    intro d hd _ _ m acc
    have hz : d = [] := List.eq_nil_of_length_eq_zero (by omega)
    subst hz
    rw [List.nil_append, sepChars_append, splitGo_sep]
    simp
  | succ n ihn =>
    intro d hd hs he m acc
    rcases d with _ | ⟨c, d1⟩
    · rw [List.nil_append, sepChars_append, splitGo_sep]
      simp
    · by_cases hc : c = '|'
      · subst hc
        rcases d1 with _ | ⟨a, d2⟩
        · simp [endsPipe] at he
        · by_cases ha : a = '|'
          · subst ha
            rcases d2 with _ | ⟨b, d3⟩
            · simp [endsPipe] at he
            · by_cases hb : b = '|'
              · subst hb
                simp [hasSep] at hs
              · have hcomb : ('|' :: '|' :: b :: d3) ++ (sepChars ++ m) =
                    '|' :: '|' :: b :: (d3 ++ (sepChars ++ m)) := rfl
                rw [hcomb, splitGo_cons3 b (d3 ++ (sepChars ++ m)) acc hb,
                  splitGo_cons2 b (d3 ++ (sepChars ++ m)) (acc ++ ['|']) hb]
                have hs2 : hasSep (b :: d3) = false := by
                  rw [hasSep_cons3 b d3 hb, hasSep_cons2 b d3 hb] at hs
                  exact hs
                have he2 : endsPipe (b :: d3) = false := by
                  rw [endsPipe_cons '|' '|' (b :: d3), endsPipe_cons '|' b d3] at he
                  exact he
                have hbd : b :: (d3 ++ (sepChars ++ m)) = (b :: d3) ++ (sepChars ++ m) := rfl
                rw [hbd, ihn (b :: d3) (by simp at hd ⊢; omega) hs2 he2 m (acc ++ ['|'] ++ ['|'])]
                simp
          · have hcomb : ('|' :: a :: d2) ++ (sepChars ++ m) =
                '|' :: a :: (d2 ++ (sepChars ++ m)) := rfl
            rw [hcomb, splitGo_cons2 a (d2 ++ (sepChars ++ m)) acc ha]
            have hs2 : hasSep (a :: d2) = false := by
              rw [hasSep_cons2 a d2 ha] at hs
              exact hs
            have he2 : endsPipe (a :: d2) = false := by
              rw [endsPipe_cons '|' a d2] at he
              exact he
            have had : a :: (d2 ++ (sepChars ++ m)) = (a :: d2) ++ (sepChars ++ m) := rfl
            rw [had, ihn (a :: d2) (by simp at hd ⊢; omega) hs2 he2 m (acc ++ ['|'])]
            simp
      · have hcomb : (c :: d1) ++ (sepChars ++ m) = c :: (d1 ++ (sepChars ++ m)) := rfl
        rw [hcomb, splitGo_cons1 c (d1 ++ (sepChars ++ m)) acc hc]
        have hs2 : hasSep d1 = false := by
          rw [hasSep_cons1 c d1 hc] at hs
          exact hs
        have he2 : endsPipe d1 = false := by
          rcases d1 with _ | ⟨x, xs⟩
          · rfl
          · rw [endsPipe_cons c x xs] at he
            exact he
        rw [ihn d1 (by simp at hd ⊢; omega) hs2 he2 m (acc ++ [c])]
        simp

theorem hasSep_exists :
    ∀ (n : Nat) (t : List Char), t.length ≤ n → hasSep t = true →
      ∃ t1 t2 : List Char, t = t1 ++ (sepChars ++ t2) := by
  intro n
  induction n with
  | zero =>
    intro t ht hs
    have hz : t = [] := List.eq_nil_of_length_eq_zero (by omega)
    subst hz
    simp [hasSep] at hs
  | succ n ihn =>
    intro t ht hs
    rcases t with _ | ⟨c, t1⟩
    · simp [hasSep] at hs
    · by_cases hc : c = '|'
      · subst hc
        rcases t1 with _ | ⟨a, t2⟩
        · simp [hasSep] at hs
        · by_cases ha : a = '|'
          · subst ha
            rcases t2 with _ | ⟨b, t3⟩
            · simp [hasSep] at hs
            · by_cases hb : b = '|'
              · subst hb
                exact ⟨[], t3, rfl⟩
              · rw [hasSep_cons3 b t3 hb, hasSep_cons2 b t3 hb] at hs
                obtain ⟨u1, u2, hu⟩ := ihn (b :: t3) (by simp at ht ⊢; omega) hs
                exact ⟨'|' :: '|' :: u1, u2, by rw [hu]; rfl⟩
          · rw [hasSep_cons2 a t2 ha] at hs
            obtain ⟨u1, u2, hu⟩ := ihn (a :: t2) (by simp at ht ⊢; omega) hs
            exact ⟨'|' :: u1, u2, by rw [hu]; rfl⟩
      · rw [hasSep_cons1 c t1 hc] at hs
        obtain ⟨u1, u2, hu⟩ := ihn t1 (by simp at ht ⊢; omega) hs
        exact ⟨c :: u1, u2, by rw [hu]; rfl⟩

theorem destructure3_of_long {A : Type} (ps : List A) (h : 3 < ps.length) :
    destructure3 ps = none := by
  rcases ps with _ | ⟨a, _ | ⟨b, _ | ⟨c, _ | ⟨d, tl⟩⟩⟩⟩ <;> simp_all [destructure3]

theorem countSep_three_seps (a b c e : List Char) :
    3 ≤ countSep (a ++ (sepChars ++ (b ++ (sepChars ++ (c ++ (sepChars ++ e)))))) := by
  have h1 := countSep_sep_between a (b ++ (sepChars ++ (c ++ (sepChars ++ e))))
  have h2 := countSep_sep_between b (c ++ (sepChars ++ e))
  have h3 := countSep_sep_between c e
  omega

/-- C9 (amended): splitting the joined identifier on `|||` recovers the
original triple whenever no field contains `|||` AND neither the docID
nor the ticker ends with a `|` character (a trailing pipe merges with
the separator, so the weaker condition that no field contains `|||` is
not sufficient); and whenever some field does contain `|||`, the split
yields more than three parts, so the fetcher's three-way destructuring
of the identifier fails. -/
theorem C9_join_split_amended (d t r : List Char) :
    ((hasSep d = false ∧ hasSep t = false ∧ hasSep r = false ∧
        endsPipe d = false ∧ endsPipe t = false) →
      pySplit (joinId d t r) = [d, t, r]) ∧
    ((hasSep d = true ∨ hasSep t = true ∨ hasSep r = true) →
      3 < (pySplit (joinId d t r)).length ∧
        destructure3 (pySplit (joinId d t r)) = none) := by
  have hlen : ∀ J : List Char, 3 ≤ countSep J →
      3 < (pySplit J).length ∧ destructure3 (pySplit J) = none := by
    intro J h3
    have hl : (pySplit J).length = countSep J + 1 := splitGo_length J []
    exact ⟨by omega, destructure3_of_long _ (by omega)⟩
  constructor
  · rintro ⟨hsd, hst, hsr, hed, het⟩
    have h1 : joinId d t r = d ++ (sepChars ++ (t ++ (sepChars ++ r))) := by
      simp [joinId, List.append_assoc]
    rw [pySplit, h1,
      splitGo_field_aux d.length d (Nat.le_refl _) hsd hed (t ++ (sepChars ++ r)) [],
      splitGo_field_aux t.length t (Nat.le_refl _) hst het r [],
      splitGo_no_sep_aux r.length r (Nat.le_refl _) hsr []]
    simp
  · intro hcase
    rcases hcase with hd | ht | hr
    · obtain ⟨u1, u2, rfl⟩ := hasSep_exists d.length d (Nat.le_refl _) hd
      have h1 : joinId (u1 ++ (sepChars ++ u2)) t r =
          u1 ++ (sepChars ++ (u2 ++ (sepChars ++ (t ++ (sepChars ++ r))))) := by
        simp [joinId, List.append_assoc]
      rw [h1]
      exact hlen _ (countSep_three_seps u1 u2 t r)
    · obtain ⟨u1, u2, rfl⟩ := hasSep_exists t.length t (Nat.le_refl _) ht
      have h1 : joinId d (u1 ++ (sepChars ++ u2)) r =
          d ++ (sepChars ++ (u1 ++ (sepChars ++ (u2 ++ (sepChars ++ r))))) := by
        simp [joinId, List.append_assoc]
      rw [h1]
      exact hlen _ (countSep_three_seps d u1 u2 r)
    · obtain ⟨u1, u2, rfl⟩ := hasSep_exists r.length r (Nat.le_refl _) hr
      have h1 : joinId d t (u1 ++ (sepChars ++ u2)) =
          d ++ (sepChars ++ (t ++ (sepChars ++ (u1 ++ (sepChars ++ u2))))) := by
        simp [joinId, List.append_assoc]
      rw [h1]
      exact hlen _ (countSep_three_seps d t u1 u2)

/-- C9 counterexample: with docID `a|`, ticker `b` and date `c`, none of
the three fields contains the substring `|||`, yet splitting the joined
identifier yields `[a, |b, c]`, not the original triple `[a|, b, c]`:
the claimed equivalence fails in the if direction. -/
theorem C9_cex_boundary_pipe :
    hasSep ['a', '|'] = false ∧ hasSep ['b'] = false ∧ hasSep ['c'] = false ∧
    pySplit (joinId ['a', '|'] ['b'] ['c']) = [['a'], ['|', 'b'], ['c']] ∧
    pySplit (joinId ['a', '|'] ['b'] ['c']) ≠ [['a', '|'], ['b'], ['c']] := by
  refine ⟨by decide, by decide, by decide, by decide, by decide⟩

/-- Witness for the amended C9: recovery at fields `d1`/`AB`/`20`, and
destructuring failure when the ticker field is itself `|||`. -/
theorem C9_join_split_w :
    pySplit (joinId ['d', '1'] ['A', 'B'] ['2', '0']) = [['d', '1'], ['A', 'B'], ['2', '0']] ∧
    (3 < (pySplit (joinId ['d', '1'] ['|', '|', '|'] ['2', '0'])).length ∧
      destructure3 (pySplit (joinId ['d', '1'] ['|', '|', '|'] ['2', '0'])) = none) :=
  ⟨(C9_join_split_amended ['d', '1'] ['A', 'B'] ['2', '0']).1
      ⟨by decide, by decide, by decide, by decide, by decide⟩,
    (C9_join_split_amended ['d', '1'] ['|', '|', '|'] ['2', '0']).2 (Or.inr (Or.inl (by decide)))⟩

/-! ## C10: generate_samples -/

theorem get?_eq_some_getD {V : Type} :
    ∀ (l : List V) (i : Nat) (d : V), i < l.length → l.get? i = some (l.getD i d) := by
  intro l
  induction l with
  | nil => intro i d h; simp at h
  | cons x xs ih =>
    intro i d h
    cases i with
    | zero => rfl
    | succ i =>
      simp only [List.get?, List.getD]
      have := ih i d (by simp at h; omega)
      simpa using this

theorem optList_map_some {A B : Type} (f : A → Option B) (g : A → B) :
    ∀ xs : List A, (∀ x ∈ xs, f x = some (g x)) →
      optList (xs.map f) = some (xs.map g) := by
  intro xs
  induction xs with
  | nil => intro _; rfl
  | cons x xs ih =>
    intro h
    rw [List.map_cons, List.map_cons]
    rw [h x (List.mem_cons_self x xs), optList, ih (fun y hy => h y (List.mem_cons_of_mem x hy))]
    rfl

theorem extractSample_eq {V : Type} (dflt : V) (b : List (String × List V)) (i : Nat)
    (h : ∀ kv ∈ b, i < kv.2.length) :
    extractSample b i = some (sampleAt dflt b i) := by
  rw [extractSample, sampleAt]
  refine optList_map_some _ _ b ?_
  intro kv hkv
  rw [get?_eq_some_getD kv.2 i dflt (h kv hkv)]
  rfl

theorem takeBatchLoop_none {V : Type} (b : List (String × List V)) :
    ∀ (rem idx n : Nat),
      takeBatchLoop b none idx n rem =
        ((List.range' idx rem).map (extractSample b), n + rem, false) := by
  intro rem
  induction rem with
  | zero => intro idx n; simp [takeBatchLoop]
  | succ rem ih =>
    intro idx n
    rw [takeBatchLoop]
    simp only [reduceCtorEq, if_false]
    rw [ih (idx + 1) (n + 1)]
    simp [List.range'_succ]
    omega

theorem takeBatchLoop_some {V : Type} (b : List (String × List V)) (k : Nat) :
    ∀ (rem idx n : Nat), n ≤ k →
      takeBatchLoop b (some k) idx n rem =
        ((List.range' idx (min rem (k - n))).map (extractSample b),
          n + min rem (k - n), decide (k - n < rem)) := by
  intro rem
  induction rem with
  | zero =>
    intro idx n hn
    simp [takeBatchLoop]
  | succ rem ih =>
    intro idx n hn
    rw [takeBatchLoop]
    by_cases hk : k = n
    · subst hk
      simp only [if_pos rfl]
      have h0 : k - k = 0 := by omega
      rw [h0]
      simp
    · have hlt : n < k := by omega
      have hne : (some k = some n) = False := by
        simp
        omega
      rw [if_neg (by simp; omega)]
      have hsub : k - (n + 1) = k - n - 1 := by omega
      rw [ih (idx + 1) (n + 1) (by omega), hsub]
      dsimp only
      have hmin : min (rem + 1) (k - n) = min rem (k - n - 1) + 1 := by omega
      have hdec : decide (k - n - 1 < rem) = decide (k - n < rem + 1) := by
        rw [decide_eq_decide]
        omega
      have harith : n + 1 + min rem (k - n - 1) = n + (min rem (k - n - 1) + 1) := by omega
      rw [hmin, List.range'_succ, List.map_cons, hdec, harith]

theorem range'_take_min : ∀ (a s m : Nat), (List.range' s a).take m = List.range' s (min m a) := by
  intro a
  induction a with
  | zero => intro s m; simp
  | succ a ih =>
    intro s m
    cases m with
    | zero => simp
    | succ m =>
      rw [List.range'_succ, List.take_cons (by omega)]
      simp only [Nat.add_sub_cancel]
      rw [ih (s + 1) m]
      have : min (m + 1) (a + 1) = min m a + 1 := by omega
      rw [this, List.range'_succ]

theorem batch_extract_some {V : Type} (dflt : V) (b : List (String × List V)) (c s : Nat)
    (hc : s + c ≤ batchSize b)
    (h2 : ∀ kv ∈ b, kv.2.length = batchSize b) :
    optList ((List.range' s c).map (extractSample b)) =
      some ((List.range' s c).map (sampleAt dflt b)) := by
  refine optList_map_some _ _ _ ?_
  intro i hi
  have hib : i < batchSize b := by
    have hr := List.mem_range'_1.mp hi
    omega
  exact extractSample_eq dflt b i (fun kv hkv => by rw [h2 kv hkv]; exact hib)

theorem genGo_none_eq {V : Type} (dflt : V) :
    ∀ (loader : List (List (String × List V))) (n : Nat),
      (∀ b ∈ loader, b ≠ []) →
      (∀ b ∈ loader, ∀ kv ∈ b, kv.2.length = batchSize b) →
      genGo none loader n = some (allSamples dflt loader) := by
  intro loader
  induction loader with
  | nil =>
    intro n _ _
    simp [genGo, allSamples]
  | cons b rest ih =>
    intro n h1 h2
    rcases hb : b with _ | ⟨kv0, bt⟩
    · exact absurd hb (h1 b (List.mem_cons_self b rest))
    · subst hb
      rw [genGo]
      have hr := takeBatchLoop_none (kv0 :: bt) kv0.2.length 0 n
      rw [hr]
      dsimp only
      have hbs : kv0.2.length = batchSize (kv0 :: bt) := rfl
      have hopt := batch_extract_some dflt (kv0 :: bt) kv0.2.length 0
        (by omega) (h2 _ (List.mem_cons_self _ rest))
      rw [hopt]
      rw [ih (n + kv0.2.length) (fun b hb => h1 b (List.mem_cons_of_mem _ hb))
        (fun b hb => h2 b (List.mem_cons_of_mem _ hb))]
      have hall : allSamples dflt ((kv0 :: bt) :: rest) =
          (List.range' 0 (kv0.2.length)).map (sampleAt dflt (kv0 :: bt)) ++
            allSamples dflt rest := by
        rw [allSamples, List.map_cons, List.flatten_cons, batchSamples]
        rw [List.range_eq_range']
        rfl
      rw [hall]
      simp

theorem genGo_some_eq {V : Type} (dflt : V) (k : Nat) :
    ∀ (loader : List (List (String × List V))) (n : Nat), n ≤ k →
      (∀ b ∈ loader, b ≠ []) →
      (∀ b ∈ loader, ∀ kv ∈ b, kv.2.length = batchSize b) →
      genGo (some k) loader n = some ((allSamples dflt loader).take (k - n)) := by
  intro loader
  induction loader with
  | nil =>
    intro n hn _ _
    simp [genGo, allSamples]
  | cons b rest ih =>
    intro n hn h1 h2
    rcases hb : b with _ | ⟨kv0, bt⟩
    · exact absurd hb (h1 b (List.mem_cons_self b rest))
    · subst hb
      rw [genGo, takeBatchLoop_some (kv0 :: bt) k kv0.2.length 0 n hn]
      dsimp only
      have hbs : batchSize (kv0 :: bt) = kv0.2.length := rfl
      have hopt := batch_extract_some dflt (kv0 :: bt) (min kv0.2.length (k - n)) 0
        (by rw [hbs]; omega) (h2 _ (List.mem_cons_self _ rest))
      rw [hopt]
      have hall : allSamples dflt ((kv0 :: bt) :: rest) =
          ((List.range' 0 (kv0.2.length)).map (sampleAt dflt (kv0 :: bt))) ++
            allSamples dflt rest := by
        rw [allSamples, List.map_cons, List.flatten_cons, batchSamples]
        rw [List.range_eq_range']
        rfl
      have hlenB : ((List.range' 0 (kv0.2.length)).map (sampleAt dflt (kv0 :: bt))).length =
          kv0.2.length := by
        rw [List.length_map, List.length_range']
      by_cases hlt : k - n < kv0.2.length
      · have hd : decide (k - n < kv0.2.length) = true := by simp [hlt]
        have htake : (((List.range' 0 (kv0.2.length)).map (sampleAt dflt (kv0 :: bt))) ++
              allSamples dflt rest).take (k - n) =
            ((List.range' 0 (kv0.2.length)).map (sampleAt dflt (kv0 :: bt))).take (k - n) := by
          refine List.take_append_of_le_length ?_
          rw [hlenB]
          omega
        have hmc : min (k - n) (kv0.2.length) = min (kv0.2.length) (k - n) := by omega
        rw [hd, hall, htake, ← List.map_take, range'_take_min, hmc]
        simp
      · have hd : decide (k - n < kv0.2.length) = false := by simp [hlt]
        have hmin : min (kv0.2.length) (k - n) = kv0.2.length := by omega
        rw [hd, hmin]
        simp only [Bool.false_eq_true, if_false]
        rw [ih (n + kv0.2.length) (by omega)
          (fun b hb => h1 b (List.mem_cons_of_mem _ hb))
          (fun b hb => h2 b (List.mem_cons_of_mem _ hb))]
        have hble : ((List.range' 0 (kv0.2.length)).map
            (sampleAt dflt (kv0 :: bt))).length ≤ k - n := by
          rw [hlenB]
          omega
        have hsub : k - n - ((List.range' 0 (kv0.2.length)).map
            (sampleAt dflt (kv0 :: bt))).length = k - (n + kv0.2.length) := by
          rw [hlenB]
          omega
        rw [hall, List.take_append_eq_append_take, List.take_of_length_le hble, hsub]

/-- C10: for every loader of batches whose columns are non-empty and of
equal length within each batch, and every truncation bound,
`generate_samples` succeeds and yields exactly the expected samples: all
of them when the bound is `None`, the first `k` when it is `k` — in
batch order and within-batch index order, each sample dict carrying
exactly its batch's keys paired with the values at that sample's index;
the total sample count is the sum of the batch sizes, and truncating to
`k` yields exactly `min k total` samples. -/
theorem C10_generate_samples {V : Type} (dflt : V) (loader : List (List (String × List V)))
    (h1 : ∀ b ∈ loader, b ≠ [])
    (h2 : ∀ b ∈ loader, ∀ kv ∈ b, kv.2.length = batchSize b) :
    generateSamples loader none = some (allSamples dflt loader) ∧
    (∀ k : Nat, generateSamples loader (some k) =
      some ((allSamples dflt loader).take k)) ∧
    (allSamples dflt loader).length = (loader.map batchSize).sum ∧
    (∀ k : Nat, ((allSamples dflt loader).take k).length =
      min k (allSamples dflt loader).length) := by
  refine ⟨genGo_none_eq dflt loader 0 h1 h2, fun k => ?_, ?_, fun k => ?_⟩
  · have := genGo_some_eq dflt k loader 0 (Nat.zero_le k) h1 h2
    simpa [generateSamples] using this
  · clear h1 h2
    induction loader with
    | nil => simp [allSamples]
    | cons b rest ih =>
      rw [allSamples, List.map_cons, List.flatten_cons, List.length_append, List.map_cons,
        List.sum_cons]
      rw [allSamples] at ih
      rw [ih]
      congr 1
      rw [batchSamples, List.length_map, List.length_range]
  · rw [List.length_take]

/-- Witness for C10 at a concrete two-batch loader. -/
theorem C10_generate_samples_w :
    generateSamples [[(("a"), [1, 2]), (("b"), [3, 4])], [(("a"), [5])]] none =
      some (allSamples 0 [[(("a"), [1, 2]), (("b"), [3, 4])], [(("a"), [5])]]) ∧
    generateSamples [[(("a"), [1, 2]), (("b"), [3, 4])], [(("a"), [5])]] (some 1) =
      some ((allSamples 0 [[(("a"), [1, 2]), (("b"), [3, 4])], [(("a"), [5])]]).take 1) :=
  ⟨(C10_generate_samples 0 _ (by decide) (by decide)).1,
    (C10_generate_samples 0 _ (by decide) (by decide)).2.1 1⟩

end ConvertTenKs
